import Mathlib

/-!
Verification development for the occtx context storage and state engine
(package `internal/context` plus its `internal/config` constants).

Modelling conventions, shared by all definitions below:

* Go strings are modelled as `List Char` (`GoStr`).  Helpers mirror the
  functions of Go's `strings` package used by the source
  (`HasPrefix`/`HasSuffix`/`TrimSuffix`/`TrimSpace`/`Contains`/`Split`/`Join`).
* The filesystem is a finite map from paths to file contents, represented
  as an association list.  `os.WriteFile`, `os.Rename` and `os.Remove`
  become `FsOp` values interpreted by `applyOp`; `os.Stat`/`os.ReadFile`
  become `fsLookup`.  Directory creation (`os.MkdirAll`,
  `Paths.EnsureDirectories`) does not affect the path-to-content map and
  is dropped.  `os.ReadDir` is modelled separately by a list of
  `DirEntry` values, mirroring the `fs.DirEntry` slice the code iterates.
* Go's `encoding/json` is an external library.  Its behaviour on the
  two-field `State` struct is pinned on the serialisation side
  (`serializeState` reproduces `json.MarshalIndent(s, "", "  ")` with
  `omitempty` exactly), while `json.Unmarshal` into `State` is an
  arbitrary parameter `parse : GoStr → Option State`.  For context data
  (`map[string]interface{}` in Go) the document type is an opaque type
  parameter `α` with `unmarshal : GoStr → Option α` and
  `marshalI : α → GoStr` standing for `json.Unmarshal` and
  `json.MarshalIndent`; theorems take the library facts they need about
  these parameters as hypotheses at the points where they are used.
* Errors built with `fmt.Errorf` are modelled by the inductive `Err`,
  one constructor per distinct error site of the source.
-/

/-- Go strings, modelled as lists of characters. -/
abbrev GoStr := List Char

/-- Model of Go `strings.HasPrefix s pre`. -/
def strStarts : GoStr → GoStr → Bool
  | _, [] => true
  | [], _ :: _ => false
  | c :: s, d :: p => c = d && strStarts s p

/-- Model of Go `strings.HasSuffix s suf`. -/
def strEndsWith (s suf : GoStr) : Bool :=
  strStarts s.reverse suf.reverse

/-- Model of Go `strings.TrimSuffix s suf`. -/
def trimSuffixStr (s suf : GoStr) : GoStr :=
  if strEndsWith s suf then s.take (s.length - suf.length) else s

/-- Whitespace recognised by Go `unicode.IsSpace` (ASCII range, which is
all the source ever feeds it). -/
def goIsSpace (c : Char) : Bool :=
  c = ' ' || c = '\t' || c = '\n' || c = '\r' || c = '\x0b' || c = '\x0c'

/-- Model of Go `strings.TrimSpace`. -/
def trimSpaceStr (s : GoStr) : GoStr :=
  ((s.dropWhile goIsSpace).reverse.dropWhile goIsSpace).reverse

/-- Model of Go `strings.Contains s string(c)` for a one-character needle. -/
def strContains (s : GoStr) (c : Char) : Bool :=
  s.any (fun d => d = c)

/-- Model of Go `strings.Split s "\n"`. -/
def splitNl : GoStr → List GoStr
  | [] => [[]]
  | c :: rest =>
    if c = '\n' then [] :: splitNl rest
    else
      match splitNl rest with
      | [] => [[c]]
      | l :: ls => (c :: l) :: ls

/-- Model of Go `strings.Join lines "\n"`. -/
def joinNl : List GoStr → GoStr
  | [] => []
  | [l] => l
  | l :: ls => l ++ '\n' :: joinNl ls

/-- The two-slot history record persisted by the state store
(`State` in the source, fields `current` and `previous`). -/
structure State where
  current : GoStr
  previous : GoStr
  deriving DecidableEq

/-- Model of `State.SetCurrent`: shift `current` into `previous`, then set
`current` to the given name. -/
def setCurrent (s : State) (contextName : GoStr) : State :=
  { current := contextName, previous := s.current }

/-- Model of `State.Unset`: shift `current` into `previous`, clear `current`. -/
def unsetState (s : State) : State :=
  { current := [], previous := s.current }

/-- Model of `State.SwitchToPrevious`: if `previous` is empty return
`false` and leave the record unchanged, otherwise exchange the two slots
and return `true`. -/
def stateSwitchToPrevious (s : State) : Bool × State :=
  if s.previous = [] then (false, s)
  else (true, { current := s.previous, previous := s.current })

/-- One hexadecimal digit, lower case, as produced by Go's JSON encoder. -/
def hexDigit (n : Nat) : Char :=
  if n < 10 then Char.ofNat ('0'.toNat + n) else Char.ofNat ('a'.toNat + (n - 10))

/-- Escaping of one character inside a JSON string literal, following
Go `encoding/json` (HTML escaping enabled, as in `json.Marshal`). -/
def jsonEscapeChar (c : Char) : GoStr :=
  if c = '"' then ['\\', '"']
  else if c = '\\' then ['\\', '\\']
  else if c = '\n' then ['\\', 'n']
  else if c = '\r' then ['\\', 'r']
  else if c = '\t' then ['\\', 't']
  else if c = '<' then ['\\', 'u', '0', '0', '3', 'c']
  else if c = '>' then ['\\', 'u', '0', '0', '3', 'e']
  else if c = '&' then ['\\', 'u', '0', '0', '2', '6']
  else if c.toNat < 32 then
    ['\\', 'u', '0', '0', hexDigit (c.toNat / 16), hexDigit (c.toNat % 16)]
  else [c]

/-- Escaping of a whole JSON string body. -/
def jsonEscape (s : GoStr) : GoStr :=
  (s.map jsonEscapeChar).flatten

/-- One `"key": "value"` line of the pretty-printed state file, with the
two-space indent of `json.MarshalIndent(s, "", "  ")`. -/
def stateFieldLine (key val : GoStr) : GoStr :=
  ' ' :: ' ' :: '"' :: key ++ '"' :: ':' :: ' ' :: '"' :: jsonEscape val ++ ['"']

/-- Output of Go `json.MarshalIndent` on the `State` struct: both fields
carry `omitempty`, so an empty slot is dropped entirely; field order is
declaration order (`current`, then `previous`). -/
def serializeState (s : State) : GoStr :=
  if s.current = [] then
    if s.previous = [] then ['{', '}']
    else '{' :: '\n' :: stateFieldLine "previous".toList s.previous ++ ['\n', '}']
  else
    if s.previous = [] then
      '{' :: '\n' :: stateFieldLine "current".toList s.current ++ ['\n', '}']
    else
      '{' :: '\n' :: stateFieldLine "current".toList s.current ++
        ',' :: '\n' :: stateFieldLine "previous".toList s.previous ++ ['\n', '}']

/-- The filesystem view used by the engine: a finite map from absolute
paths to file contents, as an association list. -/
abbrev FS := List (GoStr × GoStr)

/-- File lookup (models a successful `os.Stat` probe plus `os.ReadFile`). -/
def fsLookup : FS → GoStr → Option GoStr
  | [], _ => none
  | (p, c) :: rest, q => if p = q then some c else fsLookup rest q

/-- Removal of a path from the map (models `os.Remove`). -/
def fsRemove : FS → GoStr → FS
  | [], _ => []
  | (p, c) :: rest, q => if p = q then fsRemove rest q else (p, c) :: fsRemove rest q

/-- Create-or-overwrite of a path (models `os.WriteFile`). -/
def fsWrite (fs : FS) (p c : GoStr) : FS :=
  (p, c) :: fsRemove fs p

/-- The mutating filesystem calls the engine performs. -/
inductive FsOp where
  | write (p c : GoStr)
  | renameOp (src dst : GoStr)
  | removeOp (p : GoStr)
  deriving DecidableEq

/-- Interpretation of one filesystem call.  `os.Rename` moves the content
of `src` to `dst`, overwriting `dst`; with `src` absent it is a no-op here
(the source never reaches that situation: it always renames a file it has
just written). -/
def applyOp (fs : FS) : FsOp → FS
  | .write p c => fsWrite fs p c
  | .renameOp src dst =>
    match fsLookup fs src with
    | none => fs
    | some c => fsWrite (fsRemove fs src) dst c
  | .removeOp p => fsRemove fs p

/-- Interpretation of a sequence of filesystem calls. -/
def applyOps (fs : FS) (ops : List FsOp) : FS :=
  ops.foldl applyOp fs

/-- The `".tmp"` suffix both atomic writers append to the target path. -/
def tmpSuffix : GoStr := ['.', 't', 'm', 'p']

/-- The temp-file-then-rename call pair shared verbatim by
`State.SaveState`, `Manager.CreateContextWithFormat` and
`Manager.SwitchToContext`: `os.WriteFile(path+".tmp", content)` followed
by `os.Rename(path+".tmp", path)`. -/
def atomicWriteOps (path content : GoStr) : List FsOp :=
  [.write (path ++ tmpSuffix) content, .renameOp (path ++ tmpSuffix) path]

/-- Effect of the temp-file-then-rename pair on the filesystem. -/
def writeFileAtomic (fs : FS) (path content : GoStr) : FS :=
  applyOps fs (atomicWriteOps path content)

/-- Errors of the engine, one constructor per `fmt.Errorf` site of the
source (`Err.invalidName` carries the message of `validateContextName`,
wrapped by `RenameContext` with an `"invalid old/new name: "` label). -/
inductive Err where
  | invalidName (msg : GoStr)
  | notFound (name : GoStr)
  | invalidContent (name : GoStr)
  | alreadyExists (name fmtName : GoStr)
  | renameTargetExists (name : GoStr)
  | noActiveConfig
  | sourceInvalid
  | currentProtected (name : GoStr)
  | noPrevious
  | stalePrevious (name : GoStr)
  deriving DecidableEq

/-- `config.StateFileName`, the hidden state file inside the contexts
directory. -/
def stateFileName : GoStr := ".occtx-state.json".toList

/-- Extension of `FormatJSON` (`ContextFormat.FileExtension`). -/
def jsonExt : GoStr := ['.', 'j', 's', 'o', 'n']

/-- Extension of `FormatJSONC` (`ContextFormat.FileExtension`). -/
def jsoncExt : GoStr := ['.', 'j', 's', 'o', 'n', 'c']

/-- The closed format enum of `format.go`. -/
inductive ContextFormat where
  | json
  | jsonc
  deriving DecidableEq

/-- Model of `ContextFormat.FileExtension`. -/
def fileExtension : ContextFormat → GoStr
  | .json => jsonExt
  | .jsonc => jsoncExt

/-- Model of `ContextFormat.DisplayName`. -/
def displayName : ContextFormat → GoStr
  | .json => ['J', 'S', 'O', 'N']
  | .jsonc => ['J', 'S', 'O', 'N', 'C']

/-- Model of `GetAllFormats`. -/
def getAllFormats : List ContextFormat := [.json, .jsonc]

/-- The three paths a `Manager` reads from its `config.Paths` value for
the selected scope: `GetContextsDir`, `GetActiveConfigPath`,
`GetStateFilePath`. -/
structure Layout where
  contextsDir : GoStr
  activePath : GoStr
  statePath : GoStr

/-- Model of `filepath.Join dir file` for a separator-free file name. -/
def pathJoin (dir file : GoStr) : GoStr :=
  dir ++ '/' :: file

/-- A context as returned by the engine (`Context` in the source):
`data` is `none` for merely listed contexts and `some` for read ones. -/
structure Ctx (α : Type) where
  name : GoStr
  data : Option α
  filePath : GoStr
  deriving DecidableEq

/-- Model of `LoadState`: an absent file yields the zero state, a file
whose content `json.Unmarshal` rejects also yields the zero state, and a
parsed file yields its record.  The only error branch of the source is an
`os.ReadFile` failure on an existing file, which the map-based filesystem
cannot produce, so the result is always `Except.ok`. -/
def loadStateE (parse : GoStr → Option State) (file : Option GoStr) : Except Err State :=
  match file with
  | none => .ok { current := [], previous := [] }
  | some data =>
    match parse data with
    | none => .ok { current := [], previous := [] }
    | some st => .ok st

/-- Model of `State.SaveState`: serialize, write `<path>.tmp`, rename it
over `path`. -/
def saveState (fs : FS) (s : State) (path : GoStr) : FS :=
  writeFileAtomic fs path (serializeState s)

/-- Model of `validateContextName`, with its exact four error messages. -/
def validateContextName (name : GoStr) : Except GoStr Unit :=
  if name = [] then .error "context name cannot be empty".toList
  else if strContains name '/' || strContains name '\\' then
    .error "context name cannot contain path separators".toList
  else if name = ['.'] || name = ['.', '.'] then
    .error "context name cannot be '.' or '..'".toList
  else if strStarts name ['.'] then
    .error "context name cannot start with '.'".toList
  else .ok ()

/-- A directory entry as surfaced by `os.ReadDir`. -/
structure DirEntry where
  entryName : GoStr
  isDirEntry : Bool
  deriving DecidableEq

/-- Model of `Manager.ListContexts` over the entries of the contexts
directory: skip subdirectories, skip the state file by exact name, derive
the name by stripping a `.json` or `.jsonc` extension, skip everything
else.  (A missing directory yields an empty entry list upstream.) -/
def listContexts (α : Type) (contextsDir : GoStr) (entries : List DirEntry) : List (Ctx α) :=
  entries.filterMap (fun e =>
    if e.isDirEntry then none
    else if e.entryName = stateFileName then none
    else if strEndsWith e.entryName jsonExt then
      some { name := trimSuffixStr e.entryName jsonExt, data := none,
             filePath := pathJoin contextsDir e.entryName }
    else if strEndsWith e.entryName jsoncExt then
      some { name := trimSuffixStr e.entryName jsoncExt, data := none,
             filePath := pathJoin contextsDir e.entryName }
    else none)

/-- True when a line's trimmed content starts with `//` — the lines that
the JSONC reader removes. -/
def isCommentLine (l : GoStr) : Bool :=
  strStarts (trimSpaceStr l) ['/', '/']

/-- The line-oriented comment removal `Manager.GetContext` applies to a
`.jsonc` file before parsing: split on newlines, drop comment lines,
join with newlines. -/
def stripJsoncComments (data : GoStr) : GoStr :=
  joinNl ((splitNl data).filter (fun l => ! isCommentLine l))

/-- Model of `Manager.GetContext`: validate the name, probe
`<name>.json` then `<name>.jsonc`, read the chosen file, strip comments
when the chosen path has the `.jsonc` extension, and parse. -/
def getContext (α : Type) (unmarshal : GoStr → Option α) (L : Layout) (fs : FS)
    (name : GoStr) : Except Err (Ctx α) :=
  match validateContextName name with
  | .error m => .error (.invalidName m)
  | .ok _ =>
    let jsonPath := pathJoin L.contextsDir (name ++ jsonExt)
    let jsoncPath := pathJoin L.contextsDir (name ++ jsoncExt)
    let parseAt : GoStr → GoStr → Except Err (Ctx α) := fun contextPath data =>
      let cleanData :=
        if strEndsWith contextPath jsoncExt then stripJsoncComments data else data
      match unmarshal cleanData with
      | none => .error (.invalidContent name)
      | some d => .ok { name := name, data := some d, filePath := contextPath }
    match fsLookup fs jsonPath with
    | some data => parseAt jsonPath data
    | none =>
      match fsLookup fs jsoncPath with
      | some data => parseAt jsoncPath data
      | none => .error (.notFound name)

/-- The three-line comment header `CreateContextWithFormat` prepends to a
JSONC context (name, display name of the format, timestamp). -/
def jsoncHeader (name ts : GoStr) : GoStr :=
  "// opencode context: ".toList ++ name ++
    '\n' :: ("// Format: JSONC".toList ++
      '\n' :: ("// Created: ".toList ++ ts ++ ['\n']))

/-- Model of `Manager.CreateContextWithFormat`.  The timestamp `ts`
stands for `time.Now().Format("2006-01-02 15:04:05")`.  Returns the
result together with the filesystem after the call. -/
def createContextWithFormat (α : Type) (unmarshal : GoStr → Option α) (marshalI : α → GoStr)
    (L : Layout) (fs : FS) (name : GoStr) (format : ContextFormat) (ts : GoStr) :
    Except Err Unit × FS :=
  match validateContextName name with
  | .error m => (.error (.invalidName m), fs)
  | .ok _ =>
    let contextPath := pathJoin L.contextsDir (name ++ fileExtension format)
    if (fsLookup fs (pathJoin L.contextsDir (name ++ fileExtension .json))).isSome then
      (.error (.alreadyExists name (displayName .json)), fs)
    else if (fsLookup fs (pathJoin L.contextsDir (name ++ fileExtension .jsonc))).isSome then
      (.error (.alreadyExists name (displayName .jsonc)), fs)
    else
      match fsLookup fs L.activePath with
      | none => (.error .noActiveConfig, fs)
      | some data =>
        match unmarshal data with
        | none => (.error .sourceInvalid, fs)
        | some jsonData =>
          let formattedData :=
            match format with
            | .jsonc => jsoncHeader name ts ++ marshalI jsonData
            | .json => marshalI jsonData
          (.ok (), writeFileAtomic fs contextPath formattedData)

/-- Model of `Manager.SwitchToContext`: resolve the context, copy its raw
bytes over the active config through the temp-then-rename pair, then load
the state, `SetCurrent`, and save it. -/
def switchToContext (α : Type) (unmarshal : GoStr → Option α) (parse : GoStr → Option State)
    (L : Layout) (fs : FS) (name : GoStr) : Except Err Unit × FS :=
  match getContext α unmarshal L fs name with
  | .error e => (.error e, fs)
  | .ok ctx =>
    match fsLookup fs ctx.filePath with
    | none => (.error (.notFound name), fs)
    | some data =>
      let fs1 := writeFileAtomic fs L.activePath data
      match loadStateE parse (fsLookup fs1 L.statePath) with
      | .error e => (.error e, fs1)
      | .ok st => (.ok (), saveState fs1 (setCurrent st name) L.statePath)

/-- Model of `Manager.DeleteContext`: validate, resolve (so a missing
context fails with `notFound`), load the state, refuse to delete the
current context, otherwise remove the resolved file. -/
def deleteContext (α : Type) (unmarshal : GoStr → Option α) (parse : GoStr → Option State)
    (L : Layout) (fs : FS) (name : GoStr) : Except Err Unit × FS :=
  match validateContextName name with
  | .error m => (.error (.invalidName m), fs)
  | .ok _ =>
    match getContext α unmarshal L fs name with
    | .error e => (.error e, fs)
    | .ok ctx =>
      match loadStateE parse (fsLookup fs L.statePath) with
      | .error e => (.error e, fs)
      | .ok st =>
        if st.current = name then (.error (.currentProtected name), fs)
        else (.ok (), fsRemove fs ctx.filePath)

/-- Model of `Manager.RenameContext`: validate both names, resolve the
old context, refuse when `<newName>.json` exists, rename the resolved
file to `<newName>.json`, then patch `current`/`previous` in the state
and save it only when one of them matched the old name. -/
def renameContext (α : Type) (unmarshal : GoStr → Option α) (parse : GoStr → Option State)
    (L : Layout) (fs : FS) (oldName newName : GoStr) : Except Err Unit × FS :=
  match validateContextName oldName with
  | .error m => (.error (.invalidName ("invalid old name: ".toList ++ m)), fs)
  | .ok _ =>
    match validateContextName newName with
    | .error m => (.error (.invalidName ("invalid new name: ".toList ++ m)), fs)
    | .ok _ =>
      match getContext α unmarshal L fs oldName with
      | .error e => (.error e, fs)
      | .ok oldCtx =>
        let newContextPath := pathJoin L.contextsDir (newName ++ jsonExt)
        if (fsLookup fs newContextPath).isSome then
          (.error (.renameTargetExists newName), fs)
        else
          let fs1 := applyOp fs (.renameOp oldCtx.filePath newContextPath)
          match loadStateE parse (fsLookup fs1 L.statePath) with
          | .error e => (.error e, fs1)
          | .ok st =>
            let p1 := if st.current = oldName then
                ({ st with current := newName }, true) else (st, false)
            let p2 := if p1.1.previous = oldName then
                ({ p1.1 with previous := newName }, true) else p1
            if p2.2 then (.ok (), saveState fs1 p2.1 L.statePath)
            else (.ok (), fs1)

/-- Model of `Manager.SwitchToPrevious`: load the state, swap the two
slots on the in-memory record (failing when `previous` is empty),
re-resolve the new current name (failing with `stalePrevious` when it no
longer resolves), then delegate to `SwitchToContext`, which reloads the
state from disk before advancing it. -/
def managerSwitchToPrevious (α : Type) (unmarshal : GoStr → Option α)
    (parse : GoStr → Option State) (L : Layout) (fs : FS) : Except Err Unit × FS :=
  match loadStateE parse (fsLookup fs L.statePath) with
  | .error e => (.error e, fs)
  | .ok st =>
    match stateSwitchToPrevious st with
    | (false, _) => (.error .noPrevious, fs)
    | (true, st1) =>
      match getContext α unmarshal L fs st1.current with
      | .error _ => (.error (.stalePrevious st1.current), fs)
      | .ok _ => switchToContext α unmarshal parse L fs st1.current

/-- Model of `Manager.UnsetCurrentContext`: remove the active config if
present, then load, `Unset`, and save the state. -/
def unsetCurrentContext (parse : GoStr → Option State) (L : Layout) (fs : FS) :
    Except Err Unit × FS :=
  let fs1 :=
    match fsLookup fs L.activePath with
    | some _ => fsRemove fs L.activePath
    | none => fs
  match loadStateE parse (fsLookup fs1 L.statePath) with
  | .error e => (.error e, fs1)
  | .ok st => (.ok (), saveState fs1 (unsetState st) L.statePath)

/-! Basic laws of the filesystem map. -/

lemma fsLookup_fsRemove_self (fs : FS) (p : GoStr) : fsLookup (fsRemove fs p) p = none := by
  induction fs with
  | nil => rfl
  | cons e rest ih =>
    obtain ⟨q, c⟩ := e
    by_cases h : q = p
    · simpa [fsRemove, h] using ih
    · simpa [fsRemove, fsLookup, h] using ih

lemma fsLookup_fsRemove_ne (fs : FS) (p q : GoStr) (h : q ≠ p) :
    fsLookup (fsRemove fs p) q = fsLookup fs q := by
  induction fs with
  | nil => rfl
  | cons e rest ih =>
    obtain ⟨r, c⟩ := e
    have hpq : p ≠ q := fun hh => h hh.symm
    by_cases hr : r = p
    · have hrq : r ≠ q := by rw [hr]; exact hpq
      simp [fsRemove, fsLookup, hr, hrq, hpq, ih]
    · by_cases hq : r = q
      · simp [fsRemove, fsLookup, hr, hq, h, ih]
      · simp [fsRemove, fsLookup, hr, hq, ih]

lemma fsLookup_fsWrite_self (fs : FS) (p c : GoStr) : fsLookup (fsWrite fs p c) p = some c := by
  simp [fsWrite, fsLookup]

lemma fsLookup_fsWrite_ne (fs : FS) (p c q : GoStr) (h : q ≠ p) :
    fsLookup (fsWrite fs p c) q = fsLookup fs q := by
  have hpq : p ≠ q := fun hh => h hh.symm
  simp [fsWrite, fsLookup, hpq, fsLookup_fsRemove_ne fs p q h]

lemma ne_of_length_ne {l₁ l₂ : GoStr} (h : l₁.length ≠ l₂.length) : l₁ ≠ l₂ :=
  fun hh => h (congrArg List.length hh)

lemma self_ne_append_tmp (p : GoStr) : p ≠ p ++ tmpSuffix := by
  apply ne_of_length_ne
  simp [tmpSuffix]

lemma writeFileAtomic_def (fs : FS) (p c : GoStr) :
    writeFileAtomic fs p c =
      fsWrite (fsRemove (fsWrite fs (p ++ tmpSuffix) c) (p ++ tmpSuffix)) p c := by
  simp [writeFileAtomic, atomicWriteOps, applyOps, applyOp, List.foldl, fsLookup_fsWrite_self]

lemma fsLookup_writeFileAtomic_self (fs : FS) (p c : GoStr) :
    fsLookup (writeFileAtomic fs p c) p = some c := by
  rw [writeFileAtomic_def]
  exact fsLookup_fsWrite_self _ _ _

lemma fsLookup_writeFileAtomic_tmp (fs : FS) (p c : GoStr) :
    fsLookup (writeFileAtomic fs p c) (p ++ tmpSuffix) = none := by
  rw [writeFileAtomic_def]
  rw [fsLookup_fsWrite_ne _ _ _ _ (Ne.symm (self_ne_append_tmp p))]
  exact fsLookup_fsRemove_self _ _

lemma fsLookup_writeFileAtomic_ne (fs : FS) (p c q : GoStr)
    (h1 : q ≠ p) (h2 : q ≠ p ++ tmpSuffix) :
    fsLookup (writeFileAtomic fs p c) q = fsLookup fs q := by
  rw [writeFileAtomic_def, fsLookup_fsWrite_ne _ _ _ _ h1,
    fsLookup_fsRemove_ne _ _ _ h2, fsLookup_fsWrite_ne _ _ _ _ h2]

/-! Basic laws of the string helpers. -/

lemma strStarts_append (p r : GoStr) : strStarts (p ++ r) p = true := by
  induction p with
  | nil => cases r <;> rfl
  | cons c p ih => simp [strStarts, ih]

lemma strEndsWith_append_self (x suf : GoStr) : strEndsWith (x ++ suf) suf = true := by
  simp [strEndsWith, List.reverse_append, strStarts_append]

lemma json_not_jsonc_suffix (x : GoStr) : strEndsWith (x ++ jsonExt) jsoncExt = false := by
  simp [strEndsWith, jsonExt, jsoncExt, List.reverse_append, strStarts]

lemma validateOk_ne_nil {n : GoStr} (h : validateContextName n = .ok ()) : n ≠ [] := by
  intro hn
  subst hn
  simp [validateContextName] at h

/-! Laws of the line splitter and of comment stripping. -/

lemma splitNl_ne_nil (s : GoStr) : splitNl s ≠ [] := by
  cases s with
  | nil => simp [splitNl]
  | cons c rest =>
    simp only [splitNl]
    by_cases h : c = '\n'
    · simp [h]
    · simp only [if_neg h]
      cases splitNl rest <;> simp

lemma joinNl_splitNl (s : GoStr) : joinNl (splitNl s) = s := by
  induction s with
  | nil => rfl
  | cons c rest ih =>
    by_cases h : c = '\n'
    · subst h
      simp only [splitNl, if_pos rfl]
      cases hs : splitNl rest with
      | nil => exact absurd hs (splitNl_ne_nil rest)
      | cons l ls =>
        rw [hs] at ih
        simp [joinNl, ih]
    · simp only [splitNl, if_neg h]
      cases hs : splitNl rest with
      | nil => exact absurd hs (splitNl_ne_nil rest)
      | cons l ls =>
        rw [hs] at ih
        cases ls with
        | nil =>
          simp only [joinNl] at ih ⊢
          rw [ih]
        | cons a ls' =>
          simp only [joinNl, List.cons_append] at ih ⊢
          rw [ih]

lemma splitNl_append_cons (a b : GoStr) (h : ¬ '\n' ∈ a) :
    splitNl (a ++ '\n' :: b) = a :: splitNl b := by
  induction a with
  | nil => simp [splitNl]
  | cons c a' ih =>
    have hc : c ≠ '\n' := by
      intro hh
      subst hh
      exact h (List.mem_cons_self _ _)
    have h' : ¬ '\n' ∈ a' := fun hh => h (List.mem_cons_of_mem c hh)
    simp only [List.cons_append, splitNl, if_neg hc, List.append_eq, ih h']

lemma isCommentLine_slashes (r : GoStr) : isCommentLine ('/' :: '/' :: r) = true := by
  have h1 : List.dropWhile goIsSpace ('/' :: '/' :: r) = '/' :: '/' :: r := by
    simp [List.dropWhile, goIsSpace]
  simp only [isCommentLine, trimSpaceStr, h1]
  rw [show ('/' :: '/' :: r).reverse = r.reverse ++ ['/', '/'] by simp]
  rw [List.dropWhile_append]
  cases h2 : (List.dropWhile goIsSpace r.reverse).isEmpty with
  | true =>
    simp only [h2, if_true]
    simp [List.dropWhile, goIsSpace, strStarts]
  | false =>
    simp only [h2, Bool.false_eq_true, if_false]
    simp [List.reverse_append, strStarts]

lemma stripJsoncComments_header (name ts body : GoStr)
    (hn : ¬ '\n' ∈ name) (ht : ¬ '\n' ∈ ts)
    (hb : ∀ l ∈ splitNl body, isCommentLine l = false) :
    stripJsoncComments (jsoncHeader name ts ++ body) = body := by
  have e1 : jsoncHeader name ts ++ body =
      ("// opencode context: ".toList ++ name) ++ '\n' ::
        ("// Format: JSONC".toList ++ '\n' ::
          (("// Created: ".toList ++ ts) ++ '\n' :: body)) := by
    simp [jsoncHeader]
  have m1 : ¬ '\n' ∈ "// opencode context: ".toList ++ name := by
    simp only [List.mem_append]
    rintro (hmem | hmem)
    · revert hmem; decide
    · exact hn hmem
  have m2 : ¬ '\n' ∈ ("// Format: JSONC".toList : GoStr) := by decide
  have m3 : ¬ '\n' ∈ "// Created: ".toList ++ ts := by
    simp only [List.mem_append]
    rintro (hmem | hmem)
    · revert hmem; decide
    · exact ht hmem
  have hkeep : (splitNl body).filter (fun l => ! isCommentLine l) = splitNl body :=
    List.filter_eq_self.mpr (fun l hl => by simp [hb l hl])
  rw [stripJsoncComments, e1, splitNl_append_cons _ _ m1, splitNl_append_cons _ _ m2,
    splitNl_append_cons _ _ m3]
  rw [List.filter_cons_of_neg (by simp [isCommentLine_slashes]),
    List.filter_cons_of_neg (by simp [isCommentLine_slashes]),
    List.filter_cons_of_neg (by simp [isCommentLine_slashes]), hkeep, joinNl_splitNl]

deriving instance DecidableEq for Except

/-! Concrete instances used by witnesses and counterexamples: a two-value
document type with a JSON codec, a table-driven state parser, and a
concrete layout (the source's global-scope shape, shortened). -/

/-- A concrete pretty-printed JSON document for each value of a two-value
document type; instantiates the opaque `marshalI` parameter in witnesses. -/
def boolMarshal (b : Bool) : GoStr :=
  if b then "\x7b\n  \"flag\": true\n\x7d".toList else "\x7b\n  \"flag\": false\n\x7d".toList

/-- The matching concrete `unmarshal` instance: recognises exactly the
two documents of `boolMarshal` and rejects everything else (as a JSON
parser may). -/
def boolUnmarshal (s : GoStr) : Option Bool :=
  if s = boolMarshal true then some true
  else if s = boolMarshal false then some false
  else none

/-- A state parser that inverts `serializeState` on a fixed table of
records; instantiates the opaque `parse` parameter in witnesses. -/
def tableParse (tbl : List State) (s : GoStr) : Option State :=
  tbl.find? (fun st => decide (serializeState st = s))

/-- The state records the witnesses below exercise. -/
def demoParse : GoStr → Option State :=
  tableParse
    [ { current := ['a'], previous := ['b'] }
    , { current := ['b'], previous := ['a'] }
    , { current := "ghost".toList, previous := [] } ]

/-- A concrete layout for witnesses. -/
def demoLayout : Layout :=
  { contextsDir := ['s']
  , activePath := "opencode.json".toList
  , statePath := "s/.occtx-state.json".toList }

/-- A concrete creation timestamp for witnesses
(`time.Now().Format("2006-01-02 15:04:05")` output shape). -/
def demoTs : GoStr := "2024-01-02 03:04:05".toList

/-! Claim theorems. -/

/-- C4: `LoadState` recovers totally: for every parse behaviour and every
state-file view it returns the zero-value state without error when the
file is absent, likewise when the content fails to parse, and it never
surfaces a parse failure as an error. -/
theorem loadState_total_recovery (parse : GoStr → Option State) :
    loadStateE parse none = .ok { current := [], previous := [] }
    ∧ (∀ d, parse d = none →
        loadStateE parse (some d) = .ok { current := [], previous := [] })
    ∧ ∀ file, ∃ st, loadStateE parse file = .ok st := by
  refine ⟨rfl, ?_, ?_⟩
  · intro d hd
    simp [loadStateE, hd]
  intro file
  cases file with
  | none => exact ⟨_, rfl⟩
  | some d =>
    cases hp : parse d with
    | none => exact ⟨{ current := [], previous := [] }, by simp [loadStateE, hp]⟩
    | some st => exact ⟨st, by simp [loadStateE, hp]⟩

/-- Witness for C4 at a concrete parser and a concrete corrupt content. -/
theorem loadState_total_recovery_witness :
    loadStateE demoParse (some "garbage".toList) = .ok { current := [], previous := [] } :=
  (loadState_total_recovery demoParse).2.1 "garbage".toList (by decide)

/-- C3: a successful state save issues exactly the write of the
serialization to the sibling temp file `<path>.tmp` followed by the
rename of that temp file onto the final path; afterwards the target holds
exactly the serialized state and no temp sibling remains.  A successful
context create ends with the same temp-then-rename call pair and
postcondition on its context path. -/
theorem save_create_atomic_replace :
    (∀ (fs : FS) (s : State) (path : GoStr),
      saveState fs s path = applyOps fs
          [.write (path ++ tmpSuffix) (serializeState s),
           .renameOp (path ++ tmpSuffix) path]
      ∧ fsLookup (saveState fs s path) path = some (serializeState s)
      ∧ fsLookup (saveState fs s path) (path ++ tmpSuffix) = none)
    ∧ (∀ (α : Type) (unmarshal : GoStr → Option α) (marshalI : α → GoStr)
        (L : Layout) (fs fs' : FS) (name : GoStr) (format : ContextFormat) (ts : GoStr),
        createContextWithFormat α unmarshal marshalI L fs name format ts = (.ok (), fs') →
        ∃ content,
          fs' = applyOps fs
              [.write (pathJoin L.contextsDir (name ++ fileExtension format) ++ tmpSuffix) content,
               .renameOp (pathJoin L.contextsDir (name ++ fileExtension format) ++ tmpSuffix)
                 (pathJoin L.contextsDir (name ++ fileExtension format))]
          ∧ fsLookup fs' (pathJoin L.contextsDir (name ++ fileExtension format)) = some content
          ∧ fsLookup fs' (pathJoin L.contextsDir (name ++ fileExtension format) ++ tmpSuffix) = none) := by
  constructor
  · intro fs s path
    exact ⟨rfl, fsLookup_writeFileAtomic_self _ _ _, fsLookup_writeFileAtomic_tmp _ _ _⟩
  intro α unmarshal marshalI L fs fs' name format ts h
  unfold createContextWithFormat at h
  split at h
  · simp at h
  split at h
  · simp at h
  split at h
  · simp at h
  split at h
  · simp at h
  split at h
  · simp at h
  simp only [Prod.mk.injEq, true_and] at h
  subst h
  exact ⟨_, rfl, fsLookup_writeFileAtomic_self _ _ _, fsLookup_writeFileAtomic_tmp _ _ _⟩

/-- Witness for C3: its create half applied at a concrete successful
create (JSON format, two-value codec). -/
theorem save_create_atomic_replace_witness :
    ∃ content,
      (createContextWithFormat Bool boolUnmarshal boolMarshal demoLayout
          [(demoLayout.activePath, boolMarshal true)] ['n'] .json demoTs).2
        = applyOps [(demoLayout.activePath, boolMarshal true)]
            [.write (pathJoin demoLayout.contextsDir (['n'] ++ fileExtension .json) ++ tmpSuffix) content,
             .renameOp (pathJoin demoLayout.contextsDir (['n'] ++ fileExtension .json) ++ tmpSuffix)
               (pathJoin demoLayout.contextsDir (['n'] ++ fileExtension .json))]
      ∧ fsLookup (createContextWithFormat Bool boolUnmarshal boolMarshal demoLayout
            [(demoLayout.activePath, boolMarshal true)] ['n'] .json demoTs).2
          (pathJoin demoLayout.contextsDir (['n'] ++ fileExtension .json)) = some content
      ∧ fsLookup (createContextWithFormat Bool boolUnmarshal boolMarshal demoLayout
            [(demoLayout.activePath, boolMarshal true)] ['n'] .json demoTs).2
          (pathJoin demoLayout.contextsDir (['n'] ++ fileExtension .json) ++ tmpSuffix) = none :=
  save_create_atomic_replace.2 Bool boolUnmarshal boolMarshal demoLayout
    [(demoLayout.activePath, boolMarshal true)] _ ['n'] .json demoTs rfl

/-- The name shapes the specification requires the validator to reject:
empty, a path separator anywhere, the two dot directories, or a leading
dot. -/
def isBadName (name : GoStr) : Prop :=
  name = [] ∨ strContains name '/' = true ∨ strContains name '\\' = true ∨
    name = ['.'] ∨ name = ['.', '.'] ∨ strStarts name ['.'] = true

instance (name : GoStr) : Decidable (isBadName name) := by
  unfold isBadName
  infer_instance

/-- C9: every operation that takes a context name validates it first:
on any bad name, `get`, `create`, `delete` and `rename` fail with the
validator's `invalidName` error and return the filesystem unchanged
(no filesystem operation has happened). -/
theorem name_validation_first (name : GoStr) (hbad : isBadName name) :
    ∃ m, validateContextName name = .error m
      ∧ (∀ (α : Type) (unmarshal : GoStr → Option α) (L : Layout) (fs : FS),
          getContext α unmarshal L fs name = .error (.invalidName m))
      ∧ (∀ (α : Type) (unmarshal : GoStr → Option α) (marshalI : α → GoStr)
          (L : Layout) (fs : FS) (format : ContextFormat) (ts : GoStr),
          createContextWithFormat α unmarshal marshalI L fs name format ts =
            (.error (.invalidName m), fs))
      ∧ (∀ (α : Type) (unmarshal : GoStr → Option α) (parse : GoStr → Option State)
          (L : Layout) (fs : FS),
          deleteContext α unmarshal parse L fs name = (.error (.invalidName m), fs))
      ∧ (∀ (α : Type) (unmarshal : GoStr → Option α) (parse : GoStr → Option State)
          (L : Layout) (fs : FS) (other : GoStr),
          renameContext α unmarshal parse L fs name other =
            (.error (.invalidName ("invalid old name: ".toList ++ m)), fs))
      ∧ (∀ (α : Type) (unmarshal : GoStr → Option α) (parse : GoStr → Option State)
          (L : Layout) (fs : FS) (other : GoStr), validateContextName other = .ok () →
          renameContext α unmarshal parse L fs other name =
            (.error (.invalidName ("invalid new name: ".toList ++ m)), fs)) := by
  have hok_good : validateContextName name = .ok () → ¬ isBadName name := by
    intro hok
    unfold validateContextName at hok
    split at hok
    · exact absurd hok (by simp)
    split at hok
    · exact absurd hok (by simp)
    split at hok
    · exact absurd hok (by simp)
    split at hok
    · exact absurd hok (by simp)
    intro hb
    rcases hb with h | h | h | h | h | h <;> simp_all
  cases hval : validateContextName name with
  | ok u =>
    cases u
    exact absurd hbad (hok_good hval)
  | error m =>
    refine ⟨m, rfl, ?_, ?_, ?_, ?_, ?_⟩
    · intro α unmarshal L fs
      simp [getContext, hval]
    · intro α unmarshal marshalI L fs format ts
      simp [createContextWithFormat, hval]
    · intro α unmarshal parse L fs
      simp [deleteContext, hval]
    · intro α unmarshal parse L fs other
      simp [renameContext, hval]
    · intro α unmarshal parse L fs other hother
      simp [renameContext, hval, hother]

/-- Witness for C9 at the concrete bad name `".."`, concrete codec,
layout and filesystem. -/
theorem name_validation_first_witness :
    deleteContext Bool boolUnmarshal demoParse demoLayout
        [(demoLayout.activePath, boolMarshal true)] ['.', '.'] =
      (.error (.invalidName "context name cannot be '.' or '..'".toList),
       [(demoLayout.activePath, boolMarshal true)]) := by
  obtain ⟨m, hm, -, -, hdel, -, -⟩ := name_validation_first ['.', '.'] (by decide)
  have hmsg : validateContextName ['.', '.'] =
      .error "context name cannot be '.' or '..'".toList := by decide
  have hm' : m = "context name cannot be '.' or '..'".toList := by
    injection hm.symm.trans hmsg
  rw [← hm']
  exact hdel Bool boolUnmarshal demoParse demoLayout [(demoLayout.activePath, boolMarshal true)]

lemma pathJoin_ext (cd n ext : GoStr) : pathJoin cd (n ++ ext) = (cd ++ '/' :: n) ++ ext := by
  simp [pathJoin]

lemma jsonPath_not_jsonc (cd n : GoStr) :
    strEndsWith (pathJoin cd (n ++ jsonExt)) jsoncExt = false := by
  rw [pathJoin_ext]
  exact json_not_jsonc_suffix _

lemma jsoncPath_is_jsonc (cd n : GoStr) :
    strEndsWith (pathJoin cd (n ++ jsoncExt)) jsoncExt = true := by
  rw [pathJoin_ext]
  exact strEndsWith_append_self _ _

/-- C8: resolution order of `get`.  For every valid name, when
`<name>.json` is present its bytes are the ones read (and no comment
stripping happens), whatever the state of `<name>.jsonc`; only when
`<name>.json` is absent is `<name>.jsonc` read; when both are absent the
result is exactly the `notFound` error. -/
theorem getContext_resolution_order (α : Type) (unmarshal : GoStr → Option α)
    (L : Layout) (fs : FS) (name : GoStr)
    (hv : validateContextName name = .ok ()) :
    (∀ d, fsLookup fs (pathJoin L.contextsDir (name ++ jsonExt)) = some d →
        getContext α unmarshal L fs name =
          match unmarshal d with
          | none => .error (.invalidContent name)
          | some v => .ok { name := name, data := some v,
                            filePath := pathJoin L.contextsDir (name ++ jsonExt) })
    ∧ (fsLookup fs (pathJoin L.contextsDir (name ++ jsonExt)) = none →
        ∀ d, fsLookup fs (pathJoin L.contextsDir (name ++ jsoncExt)) = some d →
        getContext α unmarshal L fs name =
          match unmarshal (stripJsoncComments d) with
          | none => .error (.invalidContent name)
          | some v => .ok { name := name, data := some v,
                            filePath := pathJoin L.contextsDir (name ++ jsoncExt) })
    ∧ (fsLookup fs (pathJoin L.contextsDir (name ++ jsonExt)) = none →
        fsLookup fs (pathJoin L.contextsDir (name ++ jsoncExt)) = none →
        getContext α unmarshal L fs name = .error (.notFound name)) := by
  refine ⟨?_, ?_, ?_⟩
  · intro d hd
    simp only [getContext, hv, hd, jsonPath_not_jsonc, Bool.false_eq_true, if_false]
  · intro hj d hd
    simp only [getContext, hv, hj, hd, jsoncPath_is_jsonc, if_true]
  · intro hj hjc
    simp only [getContext, hv, hj, hjc]

/-- Witness for C8: with both extensions present for the same name, the
`.json` bytes win. -/
theorem getContext_resolution_order_witness :
    getContext Bool boolUnmarshal demoLayout
        [(pathJoin demoLayout.contextsDir (['n'] ++ jsonExt), boolMarshal true),
         (pathJoin demoLayout.contextsDir (['n'] ++ jsoncExt), boolMarshal false)] ['n']
      = .ok { name := ['n'], data := some true,
              filePath := pathJoin demoLayout.contextsDir (['n'] ++ jsonExt) } := by
  rw [(getContext_resolution_order Bool boolUnmarshal demoLayout
      [(pathJoin demoLayout.contextsDir (['n'] ++ jsonExt), boolMarshal true),
       (pathJoin demoLayout.contextsDir (['n'] ++ jsoncExt), boolMarshal false)] ['n']
      (by decide)).1 (boolMarshal true) (by decide)]
  decide

lemma getContext_ok_valid {α : Type} {unmarshal : GoStr → Option α} {L : Layout}
    {fs : FS} {name : GoStr} {ctx : Ctx α}
    (h : getContext α unmarshal L fs name = .ok ctx) :
    validateContextName name = .ok () := by
  unfold getContext at h
  cases hval : validateContextName name with
  | error m =>
    rw [hval] at h
    simp at h
  | ok u =>
    cases u
    rfl

/-- C5 (amended): among names that resolve to an existing context, delete
fails with `currentProtected` exactly when the name is the current one,
and succeeds otherwise — in particular when the name equals
`state.previous` — removing the resolved file.  (A name that does not
resolve fails earlier with `notFound`, even when it equals
`state.current`; see the counterexample.) -/
theorem deleteContext_guard (α : Type) (unmarshal : GoStr → Option α)
    (parse : GoStr → Option State) (L : Layout) (fs : FS) (name : GoStr)
    (ctx : Ctx α) (st : State)
    (hget : getContext α unmarshal L fs name = .ok ctx)
    (hst : loadStateE parse (fsLookup fs L.statePath) = .ok st) :
    (st.current = name →
      deleteContext α unmarshal parse L fs name = (.error (.currentProtected name), fs))
    ∧ (st.current ≠ name →
      deleteContext α unmarshal parse L fs name = (.ok (), fsRemove fs ctx.filePath)
      ∧ fsLookup (fsRemove fs ctx.filePath) ctx.filePath = none) := by
  have hv := getContext_ok_valid hget
  constructor
  · intro hcur
    simp only [deleteContext, hv, hget, hst, if_pos hcur]
  · intro hcur
    refine ⟨?_, fsLookup_fsRemove_self _ _⟩
    simp only [deleteContext, hv, hget, hst, if_neg hcur]

/-- Counterexample for C5 as stated: with `state.current = "ghost"` but no
context file for `"ghost"`, delete fails with `notFound`, not with
`currentProtected`, although the name equals the current slot. -/
theorem deleteContext_guard_cex :
    deleteContext Bool boolUnmarshal demoParse demoLayout
        [(demoLayout.statePath, serializeState { current := "ghost".toList, previous := [] })]
        "ghost".toList
      = (.error (.notFound "ghost".toList),
         [(demoLayout.statePath, serializeState { current := "ghost".toList, previous := [] })])
    ∧ (deleteContext Bool boolUnmarshal demoParse demoLayout
        [(demoLayout.statePath, serializeState { current := "ghost".toList, previous := [] })]
        "ghost".toList).1
      ≠ .error (.currentProtected "ghost".toList)
    ∧ demoParse (serializeState { current := "ghost".toList, previous := [] })
      = some { current := "ghost".toList, previous := [] } := by
  decide

/-- Witness for C5's amended theorem at a concrete resolving context:
deleting the previous context succeeds and removes its file. -/
theorem deleteContext_guard_witness :
    deleteContext Bool boolUnmarshal demoParse demoLayout
        [(demoLayout.statePath, serializeState { current := ['a'], previous := ['b'] }),
         (pathJoin demoLayout.contextsDir (['b'] ++ jsonExt), boolMarshal true)]
        ['b']
      = (.ok (), fsRemove
          [(demoLayout.statePath, serializeState { current := ['a'], previous := ['b'] }),
           (pathJoin demoLayout.contextsDir (['b'] ++ jsonExt), boolMarshal true)]
          (pathJoin demoLayout.contextsDir (['b'] ++ jsonExt))) := by
  have h := (deleteContext_guard Bool boolUnmarshal demoParse demoLayout
      [(demoLayout.statePath, serializeState { current := ['a'], previous := ['b'] }),
       (pathJoin demoLayout.contextsDir (['b'] ++ jsonExt), boolMarshal true)]
      ['b']
      { name := ['b'], data := some true,
        filePath := pathJoin demoLayout.contextsDir (['b'] ++ jsonExt) }
      { current := ['a'], previous := ['b'] }
      (by decide) (by decide)).2 (by decide)
  exact h.1

lemma strContains_trimSuffixStr (s suf : GoStr) (c : Char) (h : strContains s c = false) :
    strContains (trimSuffixStr s suf) c = false := by
  unfold trimSuffixStr
  split
  · cases hh : strContains (s.take (s.length - suf.length)) c
    · rfl
    · exfalso
      simp only [strContains, List.any_eq_true, decide_eq_true_eq] at hh
      simp only [strContains, List.any_eq_false, decide_eq_true_eq] at h
      obtain ⟨x, hx, hxc⟩ := hh
      exact h x (List.mem_of_mem_take hx) hxc
  · exact h

/-- C6 (amended): every context surfaced by the listing stems from a
non-directory entry that is not the state file and carries a `.json` or
`.jsonc` extension, and its name is free of path separators whenever the
directory entries are (as OS base names are).  The stronger shape
invariants of the specification — no leading dot, not `.`/`..`, non-empty
— do NOT hold for the listing; see the counterexample. -/
theorem listContexts_surface_invariant (α : Type) (cd : GoStr) (entries : List DirEntry)
    (hsep : ∀ e ∈ entries,
      strContains e.entryName '/' = false ∧ strContains e.entryName '\\' = false) :
    ∀ c ∈ listContexts α cd entries,
      strContains c.name '/' = false ∧ strContains c.name '\\' = false
      ∧ ∃ e ∈ entries, e.isDirEntry = false ∧ e.entryName ≠ stateFileName
          ∧ (strEndsWith e.entryName jsonExt = true ∨ strEndsWith e.entryName jsoncExt = true)
          ∧ c.filePath = pathJoin cd e.entryName
          ∧ (c.name = trimSuffixStr e.entryName jsonExt
             ∨ c.name = trimSuffixStr e.entryName jsoncExt) := by
  intro c hc
  unfold listContexts at hc
  rw [List.mem_filterMap] at hc
  obtain ⟨e, he, heq⟩ := hc
  by_cases h1 : e.isDirEntry = true
  · simp [h1] at heq
  have h1' : e.isDirEntry = false := by simpa using h1
  by_cases h2 : e.entryName = stateFileName
  · simp [h1', h2] at heq
  by_cases h3 : strEndsWith e.entryName jsonExt = true
  · simp only [h1', h2, h3, Bool.false_eq_true, if_false, if_true] at heq
    have hceq := Option.some.inj heq
    subst hceq
    exact ⟨strContains_trimSuffixStr _ _ _ (hsep e he).1,
      strContains_trimSuffixStr _ _ _ (hsep e he).2,
      e, he, h1', h2, Or.inl h3, rfl, Or.inl rfl⟩
  · by_cases h4 : strEndsWith e.entryName jsoncExt = true
    · simp only [h1', h2, h3, h4, Bool.false_eq_true, if_false, if_true] at heq
      have hceq := Option.some.inj heq
      subst hceq
      exact ⟨strContains_trimSuffixStr _ _ _ (hsep e he).1,
        strContains_trimSuffixStr _ _ _ (hsep e he).2,
        e, he, h1', h2, Or.inr h4, rfl, Or.inr rfl⟩
    · simp [h1', h2, h3, h4] at heq

/-- Counterexample for C6 as stated: the listing surfaces hidden files as
contexts.  The entry `.foo.json` yields name `.foo` (leading dot), the
entry `.json` yields the empty name, and the entry `..json` yields the
name `.`. -/
theorem listContexts_hidden_cex :
    (listContexts Unit ['s']
        [ { entryName := ".foo.json".toList, isDirEntry := false }
        , { entryName := ".json".toList, isDirEntry := false }
        , { entryName := "..json".toList, isDirEntry := false } ]).map Ctx.name
      = [".foo".toList, [], ['.']]
    ∧ strStarts ".foo".toList ['.'] = true := by
  decide

/-- Witness for C6's amended theorem at a concrete entry list containing
the state file, a directory, a context file and a stray file. -/
theorem listContexts_surface_invariant_witness :
    strContains (Ctx.name (α := Unit)
        { name := ['n'], data := none, filePath := pathJoin ['s'] "n.json".toList }) '/' = false := by
  have h := listContexts_surface_invariant Unit ['s']
      [ { entryName := stateFileName, isDirEntry := false }
      , { entryName := "sub".toList, isDirEntry := true }
      , { entryName := "n.json".toList, isDirEntry := false }
      , { entryName := "notes.txt".toList, isDirEntry := false } ]
      (by decide)
      { name := ['n'], data := none, filePath := pathJoin ['s'] "n.json".toList }
      (by decide)
  exact h.1

lemma jsonPath_ne_jsoncPath (cd n : GoStr) :
    pathJoin cd (n ++ jsonExt) ≠ pathJoin cd (n ++ jsoncExt) := by
  apply ne_of_length_ne
  simp [pathJoin, jsonExt, jsoncExt]

lemma jsonPath_ne_jsoncPath_tmp (cd n : GoStr) :
    pathJoin cd (n ++ jsonExt) ≠ pathJoin cd (n ++ jsoncExt) ++ tmpSuffix := by
  apply ne_of_length_ne
  simp [pathJoin, jsonExt, jsoncExt, tmpSuffix]

/-- C7 (amended): for every valid context name free of newline characters
(and a newline-free timestamp, as the source's format string guarantees),
creating a JSONC context from active configuration data `D` and reading
it back yields `D`: the three-line comment header is stripped in full.
The hypotheses on `unmarshal`/`marshalI` are the JSON-library facts used:
re-parsing a marshalled document yields the document, and no line of a
pretty-printed document starts with `//`.  For a valid name containing a
newline the property fails; see the counterexample. -/
theorem create_get_jsonc_roundtrip (α : Type) (unmarshal : GoStr → Option α)
    (marshalI : α → GoStr) (L : Layout) (fs : FS) (name ts src : GoStr) (D : α)
    (hv : validateContextName name = .ok ())
    (hnl : ¬ '\n' ∈ name) (htl : ¬ '\n' ∈ ts)
    (hnoj : fsLookup fs (pathJoin L.contextsDir (name ++ jsonExt)) = none)
    (hnojc : fsLookup fs (pathJoin L.contextsDir (name ++ jsoncExt)) = none)
    (hsrc : fsLookup fs L.activePath = some src)
    (hus : unmarshal src = some D)
    (hrt : unmarshal (marshalI D) = some D)
    (hcl : ∀ l ∈ splitNl (marshalI D), isCommentLine l = false) :
    createContextWithFormat α unmarshal marshalI L fs name .jsonc ts =
      (.ok (), writeFileAtomic fs (pathJoin L.contextsDir (name ++ jsoncExt))
        (jsoncHeader name ts ++ marshalI D))
    ∧ getContext α unmarshal L
        (writeFileAtomic fs (pathJoin L.contextsDir (name ++ jsoncExt))
          (jsoncHeader name ts ++ marshalI D)) name
      = .ok { name := name, data := some D,
              filePath := pathJoin L.contextsDir (name ++ jsoncExt) } := by
  constructor
  · simp only [createContextWithFormat, hv, fileExtension, hnoj, hnojc,
      Option.isSome_none, Bool.false_eq_true, if_false, hsrc, hus]
  · have e2 := stripJsoncComments_header name ts (marshalI D) hnl htl hcl
    simp only [getContext, hv,
      fsLookup_writeFileAtomic_ne fs (pathJoin L.contextsDir (name ++ jsoncExt))
        (jsoncHeader name ts ++ marshalI D) (pathJoin L.contextsDir (name ++ jsonExt))
        (jsonPath_ne_jsoncPath _ _) (jsonPath_ne_jsoncPath_tmp _ _),
      hnoj, fsLookup_writeFileAtomic_self, jsoncPath_is_jsonc, if_true, e2, hrt]

/-- Counterexample for C7 as stated: the name `"a\nb"` passes validation,
but its newline breaks the comment header into four lines, of which the
second (`"b"`) survives stripping, so reading the context back fails with
`invalidContent` instead of returning the original data. -/
theorem create_get_jsonc_newline_cex :
    validateContextName ('a' :: '\n' :: ['b']) = .ok ()
    ∧ (createContextWithFormat Bool boolUnmarshal boolMarshal demoLayout
        [(demoLayout.activePath, boolMarshal true)] ('a' :: '\n' :: ['b']) .jsonc demoTs).1
      = .ok ()
    ∧ getContext Bool boolUnmarshal demoLayout
        (createContextWithFormat Bool boolUnmarshal boolMarshal demoLayout
          [(demoLayout.activePath, boolMarshal true)] ('a' :: '\n' :: ['b']) .jsonc demoTs).2
        ('a' :: '\n' :: ['b'])
      = .error (.invalidContent ('a' :: '\n' :: ['b'])) := by
  decide

/-- Witness for C7's amended theorem at the concrete two-value codec. -/
theorem create_get_jsonc_roundtrip_witness :
    getContext Bool boolUnmarshal demoLayout
        (writeFileAtomic [(demoLayout.activePath, boolMarshal false)]
          (pathJoin demoLayout.contextsDir (['c'] ++ jsoncExt))
          (jsoncHeader ['c'] demoTs ++ boolMarshal false)) ['c']
      = .ok { name := ['c'], data := some false,
              filePath := pathJoin demoLayout.contextsDir (['c'] ++ jsoncExt) } :=
  (create_get_jsonc_roundtrip Bool boolUnmarshal boolMarshal demoLayout
    [(demoLayout.activePath, boolMarshal false)] ['c'] demoTs (boolMarshal false) false
    (by decide) (by decide) (by decide) (by decide) (by decide) (by decide) (by decide)
    (by decide) (by decide)).2

/-- C10: rename always targets the `.json` extension.  Renaming a context
stored as `<old>.jsonc` (with the comment header the create operation put
there) produces `<new>.json` holding the unchanged header-prefixed bytes,
the `.jsonc` file is gone, and a subsequent `get` of the new name fails
with `invalidContent`, because the comment header is only stripped for
paths with the `.jsonc` extension and a JSON parser rejects text starting
with `//` (hypothesis `hslash`). -/
theorem rename_format_change (α : Type) (unmarshal : GoStr → Option α)
    (parse : GoStr → Option State) (L : Layout) (fs : FS)
    (oldName newName ts body : GoStr) (d : α)
    (hvo : validateContextName oldName = .ok ())
    (hvn : validateContextName newName = .ok ())
    (hnlo : ¬ '\n' ∈ oldName) (htl : ¬ '\n' ∈ ts)
    (hjo : fsLookup fs (pathJoin L.contextsDir (oldName ++ jsonExt)) = none)
    (hjco : fsLookup fs (pathJoin L.contextsDir (oldName ++ jsoncExt))
      = some (jsoncHeader oldName ts ++ body))
    (hcl : ∀ l ∈ splitNl body, isCommentLine l = false)
    (hub : unmarshal body = some d)
    (hjn : fsLookup fs (pathJoin L.contextsDir (newName ++ jsonExt)) = none)
    (hsp : fsLookup fs L.statePath = none)
    (hspn : L.statePath ≠ pathJoin L.contextsDir (newName ++ jsonExt))
    (hspo : L.statePath ≠ pathJoin L.contextsDir (oldName ++ jsoncExt))
    (hne : pathJoin L.contextsDir (newName ++ jsonExt)
      ≠ pathJoin L.contextsDir (oldName ++ jsoncExt))
    (hslash : unmarshal (jsoncHeader oldName ts ++ body) = none) :
    renameContext α unmarshal parse L fs oldName newName =
      (.ok (), fsWrite (fsRemove fs (pathJoin L.contextsDir (oldName ++ jsoncExt)))
        (pathJoin L.contextsDir (newName ++ jsonExt)) (jsoncHeader oldName ts ++ body))
    ∧ fsLookup (fsWrite (fsRemove fs (pathJoin L.contextsDir (oldName ++ jsoncExt)))
          (pathJoin L.contextsDir (newName ++ jsonExt)) (jsoncHeader oldName ts ++ body))
        (pathJoin L.contextsDir (newName ++ jsonExt))
      = some (jsoncHeader oldName ts ++ body)
    ∧ fsLookup (fsWrite (fsRemove fs (pathJoin L.contextsDir (oldName ++ jsoncExt)))
          (pathJoin L.contextsDir (newName ++ jsonExt)) (jsoncHeader oldName ts ++ body))
        (pathJoin L.contextsDir (oldName ++ jsoncExt))
      = none
    ∧ getContext α unmarshal L
        (fsWrite (fsRemove fs (pathJoin L.contextsDir (oldName ++ jsoncExt)))
          (pathJoin L.contextsDir (newName ++ jsonExt)) (jsoncHeader oldName ts ++ body))
        newName
      = .error (.invalidContent newName) := by
  have hbody := stripJsoncComments_header oldName ts body hnlo htl hcl
  have hgetold : getContext α unmarshal L fs oldName = .ok
      { name := oldName, data := some d,
        filePath := pathJoin L.contextsDir (oldName ++ jsoncExt) } := by
    simp only [getContext, hvo, hjo, hjco, jsoncPath_is_jsonc, if_true, hbody, hub]
  have hold_ne : oldName ≠ [] := validateOk_ne_nil hvo
  refine ⟨?_, fsLookup_fsWrite_self _ _ _, ?_, ?_⟩
  · simp only [renameContext, hvo, hvn, hgetold, hjn, Option.isSome_none,
      Bool.false_eq_true, if_false, applyOp, hjco,
      fsLookup_fsWrite_ne _ _ _ _ hspn, fsLookup_fsRemove_ne _ _ _ hspo, hsp, loadStateE]
    simp only [if_neg (fun h : ([] : GoStr) = oldName => hold_ne h.symm)]
    simp
  · rw [fsLookup_fsWrite_ne _ _ _ _ (Ne.symm hne)]
    exact fsLookup_fsRemove_self _ _
  · simp only [getContext, hvn, fsLookup_fsWrite_self, jsonPath_not_jsonc,
      Bool.false_eq_true, if_false, hslash]

/-- Witness for C10 at the concrete two-value codec: the renamed JSONC
context fails `get` with `invalidContent`. -/
theorem rename_format_change_witness :
    getContext Bool boolUnmarshal demoLayout
        (fsWrite (fsRemove [(pathJoin demoLayout.contextsDir (['o'] ++ jsoncExt),
              jsoncHeader ['o'] demoTs ++ boolMarshal true)]
            (pathJoin demoLayout.contextsDir (['o'] ++ jsoncExt)))
          (pathJoin demoLayout.contextsDir (['n'] ++ jsonExt))
          (jsoncHeader ['o'] demoTs ++ boolMarshal true)) ['n']
      = .error (.invalidContent ['n']) :=
  (rename_format_change Bool boolUnmarshal demoParse demoLayout
    [(pathJoin demoLayout.contextsDir (['o'] ++ jsoncExt),
      jsoncHeader ['o'] demoTs ++ boolMarshal true)]
    ['o'] ['n'] demoTs (boolMarshal true) true
    (by decide) (by decide) (by decide) (by decide) (by decide) (by decide) (by decide)
    (by decide) (by decide) (by decide) (by decide) (by decide) (by decide)
    (by decide)).2.2.2

/-- C2 (amended): when `SwitchToPrevious` fails with `stalePrevious`, the
persisted state store has NOT been mutated: the swap acts only on the
in-memory record returned by `LoadState`, the save step inside
`SwitchToContext` is never reached, and the call returns the filesystem —
the state file included — exactly as it was. -/
theorem switchToPrevious_stale_no_mutation (α : Type) (unmarshal : GoStr → Option α)
    (parse : GoStr → Option State) (L : Layout) (fs : FS) (s0 A B : GoStr) (e : Err)
    (hs : fsLookup fs L.statePath = some s0)
    (hp : parse s0 = some { current := A, previous := B })
    (hB : B ≠ [])
    (hstale : getContext α unmarshal L fs B = .error e) :
    managerSwitchToPrevious α unmarshal parse L fs = (.error (.stalePrevious B), fs) := by
  simp only [managerSwitchToPrevious, hs, loadStateE, hp, stateSwitchToPrevious,
    if_neg hB, hstale]

/-- Counterexample for C2 as stated: state `current="a", previous="b"`,
context `a` exists, context `b` is gone.  The previous-switch fails with
`stalePrevious` and returns the filesystem unchanged: the on-disk state
file still serializes `current="a", previous="b"`, not the exchanged
values the claim asserts (whose serialization differs). -/
theorem switchToPrevious_stale_cex :
    managerSwitchToPrevious Bool boolUnmarshal demoParse demoLayout
        [(demoLayout.statePath, serializeState { current := ['a'], previous := ['b'] }),
         (pathJoin demoLayout.contextsDir (['a'] ++ jsonExt), boolMarshal true)]
      = (.error (.stalePrevious ['b']),
         [(demoLayout.statePath, serializeState { current := ['a'], previous := ['b'] }),
          (pathJoin demoLayout.contextsDir (['a'] ++ jsonExt), boolMarshal true)])
    ∧ fsLookup
        [(demoLayout.statePath, serializeState { current := ['a'], previous := ['b'] }),
         (pathJoin demoLayout.contextsDir (['a'] ++ jsonExt), boolMarshal true)]
        demoLayout.statePath
      = some (serializeState { current := ['a'], previous := ['b'] })
    ∧ serializeState { current := ['a'], previous := ['b'] }
      ≠ serializeState { current := ['b'], previous := ['a'] } := by
  decide

/-- Witness for C2's amended theorem at a concrete stale state. -/
theorem switchToPrevious_stale_no_mutation_witness :
    managerSwitchToPrevious Bool boolUnmarshal demoParse demoLayout
        [(demoLayout.statePath, serializeState { current := ['a'], previous := ['b'] })]
      = (.error (.stalePrevious ['b']),
         [(demoLayout.statePath, serializeState { current := ['a'], previous := ['b'] })]) :=
  switchToPrevious_stale_no_mutation Bool boolUnmarshal demoParse demoLayout
    [(demoLayout.statePath, serializeState { current := ['a'], previous := ['b'] })]
    (serializeState { current := ['a'], previous := ['b'] }) ['a'] ['b']
    (.notFound ['b']) (by decide) (by decide) (by decide) (by decide)

lemma getContext_json_ok (α : Type) (unmarshal : GoStr → Option α) (L : Layout) (fs : FS)
    (name ct : GoStr) (d : α)
    (hv : validateContextName name = .ok ())
    (hj : fsLookup fs (pathJoin L.contextsDir (name ++ jsonExt)) = some ct)
    (hu : unmarshal ct = some d) :
    getContext α unmarshal L fs name = .ok
      { name := name, data := some d,
        filePath := pathJoin L.contextsDir (name ++ jsonExt) } := by
  simp only [getContext, hv, hj, jsonPath_not_jsonc, Bool.false_eq_true, if_false, hu]

lemma switchToContext_json (α : Type) (unmarshal : GoStr → Option α)
    (parse : GoStr → Option State) (L : Layout) (fs : FS) (name ct s0 : GoStr) (d : α) (st : State)
    (hv : validateContextName name = .ok ())
    (hj : fsLookup fs (pathJoin L.contextsDir (name ++ jsonExt)) = some ct)
    (hu : unmarshal ct = some d)
    (hsp : fsLookup fs L.statePath = some s0)
    (hps : parse s0 = some st)
    (h1 : L.statePath ≠ L.activePath)
    (h2 : L.statePath ≠ L.activePath ++ tmpSuffix) :
    switchToContext α unmarshal parse L fs name =
      (.ok (), saveState (writeFileAtomic fs L.activePath ct) (setCurrent st name) L.statePath) := by
  simp only [switchToContext, getContext_json_ok α unmarshal L fs name ct d hv hj hu, hj,
    fsLookup_writeFileAtomic_ne fs L.activePath ct L.statePath h1 h2, hsp, loadStateE, hps]

/-- C1 (amended): starting from a persisted state `current=A, previous=B`
where both names are valid and resolve to existing `.json` context files,
two manager-level `SwitchToPrevious` calls succeed and restore the
persisted state to `current=A, previous=B`.  At the pure `State` level,
the swap applied twice is the identity on every record whose `previous`
AND `current` are both non-empty (with an empty `current` the second swap
is refused — see the counterexample — which is why the pure half of the
claim needs the extra condition; the manager half is unaffected because
resolving names are non-empty). -/
theorem switchToPrevious_involution (α : Type) (unmarshal : GoStr → Option α)
    (parse : GoStr → Option State) (L : Layout) (fs : FS) (A B s0 ctA ctB : GoStr) (dA dB : α)
    (hs : fsLookup fs L.statePath = some s0)
    (hp0 : parse s0 = some { current := A, previous := B })
    (hpBA : parse (serializeState { current := B, previous := A })
      = some { current := B, previous := A })
    (hpAB : parse (serializeState { current := A, previous := B })
      = some { current := A, previous := B })
    (hvA : validateContextName A = .ok ()) (hvB : validateContextName B = .ok ())
    (hA : fsLookup fs (pathJoin L.contextsDir (A ++ jsonExt)) = some ctA)
    (hB : fsLookup fs (pathJoin L.contextsDir (B ++ jsonExt)) = some ctB)
    (huA : unmarshal ctA = some dA) (huB : unmarshal ctB = some dB)
    (h1 : L.statePath ≠ L.activePath)
    (h2 : L.statePath ≠ L.activePath ++ tmpSuffix)
    (h3 : pathJoin L.contextsDir (A ++ jsonExt) ≠ L.statePath)
    (h4 : pathJoin L.contextsDir (A ++ jsonExt) ≠ L.statePath ++ tmpSuffix)
    (h5 : pathJoin L.contextsDir (A ++ jsonExt) ≠ L.activePath)
    (h6 : pathJoin L.contextsDir (A ++ jsonExt) ≠ L.activePath ++ tmpSuffix) :
    (∃ fs1 fs2,
      managerSwitchToPrevious α unmarshal parse L fs = (.ok (), fs1)
      ∧ managerSwitchToPrevious α unmarshal parse L fs1 = (.ok (), fs2)
      ∧ fsLookup fs2 L.statePath = some (serializeState { current := A, previous := B })
      ∧ loadStateE parse (fsLookup fs2 L.statePath) = .ok { current := A, previous := B })
    ∧ (∀ s : State, s.previous ≠ [] → s.current ≠ [] →
        (stateSwitchToPrevious (stateSwitchToPrevious s).2).2 = s) := by
  constructor
  · refine ⟨saveState (writeFileAtomic fs L.activePath ctB)
        { current := B, previous := A } L.statePath,
      saveState (writeFileAtomic (saveState (writeFileAtomic fs L.activePath ctB)
          { current := B, previous := A } L.statePath) L.activePath ctA)
        { current := A, previous := B } L.statePath, ?_, ?_, ?_, ?_⟩
    · have hswc1 := switchToContext_json α unmarshal parse L fs B ctB s0 dB
        { current := A, previous := B } hvB hB huB hs hp0 h1 h2
      simp only [managerSwitchToPrevious, hs, loadStateE, hp0, stateSwitchToPrevious,
        if_neg (validateOk_ne_nil hvB),
        getContext_json_ok α unmarshal L fs B ctB dB hvB hB huB, hswc1, setCurrent]
    · have hsp1 : fsLookup (saveState (writeFileAtomic fs L.activePath ctB)
          { current := B, previous := A } L.statePath) L.statePath
          = some (serializeState { current := B, previous := A }) := by
        simp only [saveState]
        exact fsLookup_writeFileAtomic_self _ _ _
      have hA1 : fsLookup (saveState (writeFileAtomic fs L.activePath ctB)
          { current := B, previous := A } L.statePath)
          (pathJoin L.contextsDir (A ++ jsonExt)) = some ctA := by
        simp only [saveState]
        rw [fsLookup_writeFileAtomic_ne _ _ _ _ h3 h4,
          fsLookup_writeFileAtomic_ne _ _ _ _ h5 h6]
        exact hA
      have hswc2 := switchToContext_json α unmarshal parse L
        (saveState (writeFileAtomic fs L.activePath ctB)
          { current := B, previous := A } L.statePath)
        A ctA (serializeState { current := B, previous := A }) dA
        { current := B, previous := A } hvA hA1 huA hsp1 hpBA h1 h2
      simp only [managerSwitchToPrevious, hsp1, loadStateE, hpBA, stateSwitchToPrevious,
        if_neg (validateOk_ne_nil hvA),
        getContext_json_ok α unmarshal L _ A ctA dA hvA hA1 huA, hswc2, setCurrent]
    · simp only [saveState]
      exact fsLookup_writeFileAtomic_self _ _ _
    · have hsp2 : fsLookup (saveState (writeFileAtomic (saveState
          (writeFileAtomic fs L.activePath ctB) { current := B, previous := A } L.statePath)
          L.activePath ctA) { current := A, previous := B } L.statePath) L.statePath
          = some (serializeState { current := A, previous := B }) := by
        simp only [saveState]
        exact fsLookup_writeFileAtomic_self _ _ _
      rw [hsp2]
      simp only [loadStateE, hpAB]
  · intro s hprev hcur
    cases s with
    | mk c p =>
      have hp' : p ≠ [] := by simpa using hprev
      have hc' : c ≠ [] := by simpa using hcur
      simp [stateSwitchToPrevious, hp', hc']

/-- Counterexample for C1's pure half as stated: with `current = ""` and
`previous = "b"`, the first swap succeeds but the second is refused (the
new `previous` is empty), so applying the swap twice is not the identity
on every record with non-empty `previous`. -/
theorem stateSwitch_double_cex :
    (stateSwitchToPrevious
        (stateSwitchToPrevious { current := [], previous := ['b'] }).2).2
      ≠ { current := [], previous := ['b'] }
    ∧ ({ current := [], previous := ['b'] } : State).previous ≠ [] := by
  decide

/-- Filesystem used by the C1 witness: persisted state `current="a",
previous="b"` and both context files present. -/
def demoInvFs : FS :=
  [ (demoLayout.statePath, serializeState { current := ['a'], previous := ['b'] })
  , (pathJoin demoLayout.contextsDir (['a'] ++ jsonExt), boolMarshal true)
  , (pathJoin demoLayout.contextsDir (['b'] ++ jsonExt), boolMarshal false) ]

/-- Witness for C1 at the concrete two-value codec and table parser. -/
theorem switchToPrevious_involution_witness :
    (∃ fs1 fs2,
      managerSwitchToPrevious Bool boolUnmarshal demoParse demoLayout demoInvFs = (.ok (), fs1)
      ∧ managerSwitchToPrevious Bool boolUnmarshal demoParse demoLayout fs1 = (.ok (), fs2)
      ∧ fsLookup fs2 demoLayout.statePath
          = some (serializeState { current := ['a'], previous := ['b'] })
      ∧ loadStateE demoParse (fsLookup fs2 demoLayout.statePath)
          = .ok { current := ['a'], previous := ['b'] })
    ∧ (∀ s : State, s.previous ≠ [] → s.current ≠ [] →
        (stateSwitchToPrevious (stateSwitchToPrevious s).2).2 = s) :=
  switchToPrevious_involution Bool boolUnmarshal demoParse demoLayout demoInvFs
    ['a'] ['b'] (serializeState { current := ['a'], previous := ['b'] })
    (boolMarshal true) (boolMarshal false) true false
    (by decide) (by decide) (by decide) (by decide) (by decide) (by decide)
    (by decide) (by decide) (by decide) (by decide) (by decide) (by decide)
    (by decide) (by decide) (by decide) (by decide)
